import Mathlib

/-!
Shallow embedding of the core of the tinycache repository
(ThembinkosiThemba/tinycache), written to check the claims of its
natural-language specification.

Conventions of the embedding:
* The system clock is passed explicitly: every function that calls
  SystemTime::now in the source takes a parameter named now, measured in
  Unix seconds exactly as compute_now_timestamp returns them.
* f64 values are modelled as rationals; the source never produces NaN or
  infinity on the paths the claims exercise, and
  serde_json::Number::from_f64 only fails on those.
* HashMap is modelled as an association list in iteration order: insert
  replaces in place, remove filters the key out, iteration is list order.
  VecDeque is a plain list with the front at the head.
* File handles, directories and the tokio executor are outside the
  embedding; the WAL is the chronological list of entries the process
  appended, which is exactly what recovery replays.
-/

set_option maxRecDepth 4096

/-- JSON values (serde_json::Value), with numbers as rationals. -/
inductive Json where
  | null
  | bool (b : Bool)
  | num (q : Rat)
  | str (s : String)
  | arr (elems : List Json)
  | obj (fields : List (String × Json))

/-- serde_json::Value::as_f64: numbers only. -/
def Json.asF64 : Json → Option Rat
  | Json.num q => some q
  | _ => none

/-- serde_json::Value::as_str: strings only. -/
def Json.asStr : Json → Option String
  | Json.str s => some s
  | _ => none

/-- Value of a digit string, most significant first. -/
def digitsToNat (cs : List Char) : Nat :=
  cs.foldl (fun a c => a * 10 + (c.toNat - 48)) 0

/-- Whether one character list is a prefix of another. -/
def charsPre : List Char → List Char → Bool
  | [], _ => true
  | _ :: _, [] => false
  | a :: as, b :: bs => a == b && charsPre as bs

/-- Replacement of every occurrence of a pattern, fueled so that the
recursion is structural (one unit of fuel per consumed character; fuel
equal to the length of the input is always enough). -/
def replaceFuel (pat rep : List Char) : Nat → List Char → List Char
  | 0, l => l
  | _ + 1, [] => []
  | fuel + 1, c :: rest =>
    if pat ≠ [] ∧ charsPre pat (c :: rest) then
      rep ++ replaceFuel pat rep fuel (rest.drop (pat.length - 1))
    else c :: replaceFuel pat rep fuel rest

/-- String::replace of the source, on character lists (the builtin does
not reduce in the kernel). -/
def strReplace (s pat rep : String) : String :=
  ⟨replaceFuel pat.data rep.data s.data.length s.data⟩

/-- Split on a pattern, fueled like replaceFuel. -/
def splitOnFuel (pat : List Char) : Nat → List Char → List Char → List (List Char)
  | 0, l, acc => [acc ++ l]
  | _ + 1, [], acc => [acc]
  | fuel + 1, c :: rest, acc =>
    if pat ≠ [] ∧ charsPre pat (c :: rest) then
      acc :: splitOnFuel pat fuel (rest.drop (pat.length - 1)) []
    else splitOnFuel pat fuel rest (acc ++ [c])

/-- String::split of the source, on character lists. -/
def strSplitOn (s pat : String) : List String :=
  (splitOnFuel pat.data s.data.length s.data []).map (fun cs => ⟨cs⟩)

/-- str::starts_with of the source, on character lists. -/
def strStartsWith (s pat : String) : Bool :=
  charsPre pat.data s.data

/-- String to natural number: every character a digit, at least one
(the usize parse serde applies to array indices in pointers). -/
def strToNatQ (s : String) : Option Nat :=
  if s.data ≠ [] ∧ s.data.all Char.isDigit then some (digitsToNat s.data) else none

/-- Lowercasing of a string, character by character (str::to_lowercase
on the ASCII command text the middleware sees). -/
def lowerStr (s : String) : String :=
  ⟨s.data.map Char.toLower⟩

/-- f64 addition of the model: the mkRat form of rational addition,
which the kernel can evaluate (f64Add_eq_add below shows it is plain
rational addition). -/
def f64Add (a b : Rat) : Rat :=
  mkRat (a.num * b.den + b.num * a.den) (a.den * b.den)

/-- Models str::parse::&lt;f64&gt; on plain decimal literals
(optional sign, digits, optional fraction). The exotic forms the Rust
parser also accepts (exponents, inf, nan) never reach this function on
the paths the claims exercise. -/
def parseF64 (s : String) : Option Rat :=
  let cs := s.data
  let sign : Bool := match cs with
    | '-' :: _ => true
    | _ => false
  let cs2 : List Char := match cs with
    | '-' :: rest => rest
    | '+' :: rest => rest
    | rest => rest
  let intPart := cs2.takeWhile Char.isDigit
  let rest := cs2.dropWhile Char.isDigit
  match rest with
  | [] =>
    if intPart.isEmpty then none
    else
      let n : Int := digitsToNat intPart
      some (mkRat (if sign then -n else n) 1)
  | '.' :: frac =>
    if frac.all Char.isDigit ∧ (intPart ≠ [] ∨ frac ≠ []) then
      let n : Int := digitsToNat intPart * 10 ^ frac.length + digitsToNat frac
      some (mkRat (if sign then -n else n) (10 ^ frac.length))
    else none
  | _ => none

/-- One token of a JSON pointer, with the RFC 6901 escapes undone
(serde_json::Value::pointer). -/
def jsonPtrToken (s : String) : String :=
  strReplace (strReplace s ("~1") ("/")) ("~0") ("~")

/-- One navigation step of serde_json::Value::pointer. -/
def jsonStep (j : Json) (tok : String) : Option Json :=
  match j with
  | Json.obj fields =>
    match fields.find? (fun kv => decide (kv.1 = tok)) with
    | some kv => some kv.2
    | none => none
  | Json.arr elems =>
    match strToNatQ tok with
    | some i => elems.get? i
    | none => none
  | _ => none

/-- serde_json::Value::pointer. -/
def Json.pointer (j : Json) (p : String) : Option Json :=
  if p = "" then some j
  else if strStartsWith p ("/") then
    ((strSplitOn p ("/")).drop 1).foldlM (fun acc tok => jsonStep acc (jsonPtrToken tok)) j
  else none

/-- DataValue from src/db/db.rs. -/
inductive DataValue where
  | string (s : String)
  | list (xs : List String)
  | set (xs : List String)
  | json (j : Json)

/-- CacheKey from src/db/cache.rs. The entry_type field has the single
variant KeyValue today, so it carries no information and is omitted. -/
structure CacheKey where
  database : String
  key : String
deriving DecidableEq

/-- CacheValue::KeyValue(DataValue, Option&lt;u64&gt;) from src/db/cache.rs. -/
structure CacheValue where
  value : DataValue
  ttl_secs : Option Nat

/-- CacheItem from src/db/cache.rs. -/
structure CacheItem where
  value : CacheValue
  created_at : Nat
  expiry : Option Nat
  last_access : Nat
  frequency : Nat

/-- One cache shard: the HashMap (as an association list in iteration
order) together with its recency VecDeque (front at the head). -/
structure Shard where
  map : List (CacheKey × CacheItem)
  queue : List CacheKey

/-- The empty shard. -/
def Shard.empty : Shard := ⟨[], []⟩

/-- Eviction policies; the source matches the eviction_policy string
against the LRU, LFU and LFRU constants of its constants module (that
module is not under src/; per spec §3 the policy set is exactly these
three). -/
inductive Policy where
  | lru
  | lfu
  | lfru
deriving DecidableEq

/-- The per-shard configuration used by Cache::insert and
Cache::evict_shard: per-shard cap max_size / shard_count, the policy,
frequency_threshold (source default 5) and time_threshold in seconds
(source default 3600). -/
structure ShardCfg where
  cap : Nat
  policy : Policy
  frequency_threshold : Nat
  time_threshold : Nat

/-- HashMap::get on the association list. -/
def lookupKey : List (CacheKey × CacheItem) → CacheKey → Option CacheItem
  | [], _ => none
  | kv :: rest, k => if kv.1 = k then some kv.2 else lookupKey rest k

/-- Whether the map contains a key. -/
def containsKey (m : List (CacheKey × CacheItem)) (k : CacheKey) : Bool :=
  (lookupKey m k).isSome

/-- HashMap::insert: replace in place, or append a fresh binding. -/
def insertKV (k : CacheKey) (v : CacheItem) : List (CacheKey × CacheItem) → List (CacheKey × CacheItem)
  | [] => [(k, v)]
  | kv :: rest => if kv.1 = k then (k, v) :: rest else kv :: insertKV k v rest

/-- HashMap::remove (the key is unique in a real HashMap; the model
removes every binding of the key). -/
def eraseKey (k : CacheKey) (m : List (CacheKey × CacheItem)) : List (CacheKey × CacheItem) :=
  m.filter (fun kv => decide (kv.1 ≠ k))

/-- Remove a key from the map and retain the queue without it, the
combination the source performs at every removal site. -/
def removeKey (k : CacheKey) (s : Shard) : Shard :=
  ⟨eraseKey k s.map, s.queue.filter (fun q => decide (q ≠ k))⟩

/-- compute_now_timestamp from src/utils/utils.rs: Unix seconds.
The clock is a parameter of the embedding. -/
def compute_now_timestamp (now : Nat) : Nat := now

/-- compute_expiry_using_ttl from src/utils/utils.rs: now plus the ttl,
as absolute Unix seconds. -/
def compute_expiry_using_ttl (now : Nat) (ttl : Option Nat) : Option Nat :=
  ttl.map (fun d => now + d)

/-- compute_expiry from src/utils/utils.rs: the current time plus seven
days, as absolute Unix seconds, packaged as a Duration. -/
def compute_expiry (now : Nat) : Option Nat :=
  some (now + 7 * 24 * 60 * 60)

/-- The expiry test the source applies on access and during reaping:
item.expiry.map_or(false, fun e => now &gt; e). -/
def isExpired (now : Nat) (it : CacheItem) : Bool :=
  match it.expiry with
  | some e => decide (now > e)
  | none => false

/-- Cache::get restricted to one shard: expired entries are removed and
count as a miss; hits bump frequency, refresh last_access and move the
key to the queue tail. -/
def Shard.getOp (now : Nat) (k : CacheKey) (s : Shard) : Shard × Option CacheValue :=
  match lookupKey s.map k with
  | some item =>
    if isExpired now item then
      (removeKey k s, none)
    else
      let item2 : CacheItem :=
        { item with frequency := item.frequency + 1, last_access := now }
      (⟨insertKV k item2 s.map, s.queue.filter (fun q => decide (q ≠ k)) ++ [k]⟩,
        some item2.value)
  | none => (s, none)

/-- Cache::delete restricted to one shard. -/
def Shard.deleteOp (k : CacheKey) (s : Shard) : Shard × Option CacheValue :=
  match lookupKey s.map k with
  | some item => (removeKey k s, some item.value)
  | none => (s, none)

/-- Cache::update_key_value restricted to one shard: no expiry check;
replaces value and expiry, bumps frequency, moves to the queue tail and
returns the previous value when the key is present. -/
def Shard.updateOp (now : Nat) (k : CacheKey) (v : DataValue) (ttl : Option Nat)
    (s : Shard) : Shard × Option DataValue :=
  match lookupKey s.map k with
  | some item =>
    let old := item.value.value
    let item2 : CacheItem :=
      { item with
        value := ⟨v, ttl⟩
        expiry := compute_expiry_using_ttl now ttl
        frequency := item.frequency + 1
        last_access := now }
    (⟨insertKV k item2 s.map, s.queue.filter (fun q => decide (q ≠ k)) ++ [k]⟩, some old)
  | none => (s, none)

/-- The numeric view Cache::incr_key_value takes of a stored value:
parse a String as f64, take a Json number, anything else is not numeric. -/
def dataValueNum : DataValue → Option Rat
  | DataValue.string s => parseF64 s
  | DataValue.json j => j.asF64
  | _ => none

/-- Cache::incr_key_value restricted to one shard: no expiry check; on a
present numeric value, stores Json(old + amount), bumps frequency and
recency and returns the new number. -/
def Shard.incrOp (now : Nat) (k : CacheKey) (amount : Rat) (s : Shard) : Shard × Option Rat :=
  match lookupKey s.map k with
  | some item =>
    match dataValueNum item.value.value with
    | some num =>
      let newValue := f64Add num amount
      let item2 : CacheItem :=
        { item with
          value := ⟨DataValue.json (Json.num newValue), item.value.ttl_secs⟩
          frequency := item.frequency + 1
          last_access := now }
      (⟨insertKV k item2 s.map, s.queue.filter (fun q => decide (q ≠ k)) ++ [k]⟩,
        some newValue)
    | none => (s, none)
  | none => (s, none)

/-- The keys the reap phase of Cache::evict_shard collects: those whose
expiry is set and strictly in the past. -/
def expiredKeys (now : Nat) (m : List (CacheKey × CacheItem)) : List CacheKey :=
  m.filterMap (fun kv => if isExpired now kv.2 then some kv.1 else none)

/-- The reap phase of Cache::evict_shard: remove every expired entry
from the map and the queue. -/
def reapExpired (now : Nat) (s : Shard) : Shard :=
  (expiredKeys now s.map).foldl (fun acc k => removeKey k acc) s

/-- One eviction candidate: (key, frequency, last_access) as collected
by the LFRU branch of Cache::evict_shard. -/
structure Cand where
  key : CacheKey
  frequency : Nat
  last_access : Nat

/-- The candidate list of a shard, in map iteration order. -/
def candidatesOf (s : Shard) : List Cand :=
  s.map.map (fun kv => ⟨kv.1, kv.2.frequency, kv.2.last_access⟩)

/-- The order the LFRU branch sorts by: ascending frequency, ties broken
by larger last_access first (the comparator of cache.rs line 284). -/
def candLE (a b : Cand) : Prop :=
  a.frequency < b.frequency ∨ (a.frequency = b.frequency ∧ b.last_access ≤ a.last_access)

instance (a b : Cand) : Decidable (candLE a b) := by
  unfold candLE
  infer_instance

instance : IsTotal Cand candLE := by
  constructor
  intro a b
  unfold candLE
  omega

instance : IsTrans Cand candLE := by
  constructor
  intro a b c hab hbc
  unfold candLE at hab hbc ⊢
  omega

/-- The stable sort_by of the LFRU branch (Rust slice::sort_by is
stable; insertion sort with the non-strict comparator is stable). -/
def sortCands (l : List Cand) : List Cand :=
  l.insertionSort candLE

/-- The first scan of the LFRU branch: walk the sorted candidates and
stop at the first item that is below the frequency threshold and whose
age now - last_access (saturating) exceeds the time threshold. -/
def lfruScanBoth (cfg : ShardCfg) (now : Nat) : List Cand → Option CacheKey
  | [] => none
  | c :: rest =>
    if c.frequency < cfg.frequency_threshold ∧ now - c.last_access > cfg.time_threshold then
      some c.key
    else lfruScanBoth cfg now rest

/-- The second scan of the LFRU branch: the first item below the
frequency threshold, regardless of age. -/
def lfruScanFreq (cfg : ShardCfg) : List Cand → Option CacheKey
  | [] => none
  | c :: rest =>
    if c.frequency < cfg.frequency_threshold then some c.key
    else lfruScanFreq cfg rest

/-- Iterator::min_by_key on frequency over the map, returning the first
minimum together with its frequency (Rust min_by_key keeps the first of
equal minima). -/
def minByFreqAux : List (CacheKey × CacheItem) → Option (CacheKey × Nat)
  | [] => none
  | kv :: rest =>
    match minByFreqAux rest with
    | none => some (kv.1, kv.2.frequency)
    | some best =>
      if kv.2.frequency ≤ best.2 then some (kv.1, kv.2.frequency) else some best

/-- One pass of the while body of Cache::evict_shard. none encodes the
break of the LRU branch on an empty queue; the LFU and LFRU branches
never break and return the shard unchanged when it is empty. -/
def evictBody (cfg : ShardCfg) (now : Nat) (s : Shard) : Option Shard :=
  match cfg.policy with
  | Policy.lru =>
    match s.queue with
    | [] => none
    | k :: rest => some (removeKey k ⟨s.map, rest⟩)
  | Policy.lfu =>
    match minByFreqAux s.map with
    | some best => some (removeKey best.1 s)
    | none => some s
  | Policy.lfru =>
    let sorted := sortCands (candidatesOf s)
    match lfruScanBoth cfg now sorted with
    | some k => some (removeKey k s)
    | none =>
      match lfruScanFreq cfg sorted with
      | some k => some (removeKey k s)
      | none =>
        match sorted with
        | c :: _ => some (removeKey c.key s)
        | [] => some s

/-- The while loop of Cache::evict_shard, with explicit fuel: none means
the fuel ran out before the loop exited, some is the shard at exit. -/
def evictLoopF (cfg : ShardCfg) (now : Nat) : Nat → Shard → Option Shard
  | 0, _ => none
  | Nat.succ fuel, s =>
    if s.map.length ≥ cfg.cap then
      match evictBody cfg now s with
      | some s2 => evictLoopF cfg now fuel s2
      | none => some s
    else some s

/-- Fuel that suffices whenever the eviction loop terminates at all:
every iteration that makes progress shrinks this measure. -/
def evictMeasure (s : Shard) : Nat :=
  s.map.length + s.queue.length

/-- Cache::evict_shard: reap expired entries, then run the policy loop.
none exactly when the Rust loop never exits. -/
def evict_shard (cfg : ShardCfg) (now : Nat) (s : Shard) : Option Shard :=
  let r := reapExpired now s
  evictLoopF cfg now (evictMeasure r + 1) r

/-- Cache::insert restricted to the owning shard: evict when at or over
the per-shard cap, then insert a fresh item (frequency 1, expiry
now + ttl) and push the key on the queue tail. none when the eviction
loop diverges. -/
def Shard.insertOp (cfg : ShardCfg) (now : Nat) (k : CacheKey) (v : CacheValue)
    (ttl : Option Nat) (s : Shard) : Option Shard :=
  let afterEvict : Option Shard :=
    if s.map.length ≥ cfg.cap then evict_shard cfg now s else some s
  afterEvict.map (fun s1 =>
    let item : CacheItem :=
      { value := v
        created_at := compute_now_timestamp now
        frequency := 1
        last_access := compute_now_timestamp now
        expiry := compute_expiry_using_ttl now ttl }
    ⟨insertKV k item s1.map, s1.queue ++ [k]⟩)

/-! ## The WAL layer (src/persistance/persistance.rs) -/

/-- WalOperation from src/persistance/persistance.rs. Durations are their
whole-second values. -/
inductive WalOp where
  | create (key : String) (value : DataValue) (ttl : Option Nat)
  | update (key : String) (value : DataValue) (ttl : Option Nat)
  | delete (key : String)
  | increment (key : String) (amount : Rat)
  | decrement (key : String) (amount : Rat)
  | dropDb

/-- WalEntry from src/persistance/persistance.rs. -/
structure WalEntry where
  database : String
  operation : WalOp
  timestamp : Nat

/-- The constructor tag of a WAL operation, for decidable statements
about WAL contents. -/
inductive WalTag where
  | create
  | update
  | delete
  | increment
  | decrement
  | dropDb
deriving DecidableEq

/-- Tag of a WAL operation. -/
def walTag : WalOp → WalTag
  | WalOp.create _ _ _ => WalTag.create
  | WalOp.update _ _ _ => WalTag.update
  | WalOp.delete _ => WalTag.delete
  | WalOp.increment _ _ => WalTag.increment
  | WalOp.decrement _ _ => WalTag.decrement
  | WalOp.dropDb => WalTag.dropDb

/-- The amount field of Increment/Decrement entries. -/
def walAmount : WalOp → Option Rat
  | WalOp.increment _ a => some a
  | WalOp.decrement _ a => some a
  | _ => none

/-- The ttl field of Create entries. -/
def walCreateTtl : WalOp → Option (Option Nat)
  | WalOp.create _ _ t => some t
  | _ => none

/-- The sync decision of WalManager::append (persistance.rs lines
215-248) as a function of the policy string, the current time in Unix
seconds (compute_now_timestamp) and the stored last_sync field. Returns
whether a sync system call is issued and the new last_sync. The source
divides the seconds-valued clock by 1000 in the always and everysec
arms. -/
def appendSyncStep (policy : String) (now : Nat) (last_sync : Nat) : Bool × Nat :=
  if policy = "always" then (true, compute_now_timestamp now / 1000)
  else if policy = "everysec" then
    (if compute_now_timestamp now / 1000 > last_sync then
      (true, compute_now_timestamp now / 1000)
    else (false, last_sync))
  else if policy = "no" then (false, last_sync)
  else (true, last_sync)

/-- The initial last_sync of WalManager::new: compute_now_timestamp()
divided by 1000. -/
def walManagerInitLastSync (now : Nat) : Nat :=
  compute_now_timestamp now / 1000

/-! ## The database engine (src/db/db.rs) -/

/-- u32::next_power_of_two, applied by Cache::new to the shard count. -/
def next_power_of_two (n : Nat) : Nat :=
  if n ≤ 1 then 1 else 2 ^ (Nat.log2 (n - 1) + 1)

/-- The engine configuration fields the claims touch (DBConfig):
max_entries, eviction_policy, worker_threads (the shard count argument
of Cache::new) and default_ttl_secs. -/
structure EngineCfg where
  max_entries : Nat
  eviction_policy : Policy
  worker_threads : Nat
  default_ttl_secs : Nat

/-- The ShardCfg of every cache the engine creates (Cache::new): the
per-shard cap is max_size divided by the power-of-two shard count, the
thresholds are the constructor constants 5 and 3600. -/
def shard_cfg_of (cfg : EngineCfg) : ShardCfg :=
  { cap := cfg.max_entries / next_power_of_two cfg.worker_threads
    policy := cfg.eviction_policy
    frequency_threshold := 5
    time_threshold := 3600 }

/-- The engine state the claims touch: the database registry (name to
cache, modelled per database as one shard, the configuration
shard_count = 1) and the chronological list of WAL entries the process
appended across all databases. -/
structure Engine where
  dbs : List (String × Shard)
  wal : List WalEntry

/-- The empty engine. -/
def Engine.empty : Engine := ⟨[], []⟩

/-- Registry lookup. -/
def lookupDb : List (String × Shard) → String → Option Shard
  | [], _ => none
  | p :: rest, db => if p.1 = db then some p.2 else lookupDb rest db

/-- Registry update in place (the entry exists after ensure_db_exists). -/
def setDb (db : String) (s : Shard) : List (String × Shard) → List (String × Shard)
  | [] => [(db, s)]
  | p :: rest => if p.1 = db then (db, s) :: rest else p :: setDb db s rest

/-- TinyCache::ensure_db_exists: create an empty cache on first
reference. -/
def ensure_db_exists (db : String) (e : Engine) : Engine :=
  if (lookupDb e.dbs db).isSome then e
  else { e with dbs := e.dbs ++ [(db, Shard.empty)] }

/-- The shard of a database after ensure_db_exists. -/
def shardOfDb (db : String) (e : Engine) : Shard :=
  (lookupDb e.dbs db).getD Shard.empty

/-- The CacheKey Cache::insert_key_value and friends build. -/
def cache_key_of (db k : String) : CacheKey := ⟨db, k⟩

/-- PersistenceManager::log_operation: build the entry and append it.
The walFail flag models an io::Result failure of the underlying file
write; on failure the error propagates and nothing is appended. -/
def log_operation (walFail : Bool) (db : String) (op : WalOp) (now : Nat)
    (e : Engine) : Option Engine :=
  if walFail then none
  else some { e with wal := e.wal ++ [⟨db, op, now⟩] }

/-- The mutating engine operations of src/db/db.rs. -/
inductive EngineOp where
  | create (db key : String) (value : DataValue)
  | createTTL (db key : String) (value : DataValue) (ttl : Nat)
  | update (db key : String) (value : DataValue) (ttl : Option Nat)
  | delete (db key : String)
  | increment (db key : String) (amount : Rat)
  | decrement (db key : String) (amount : Rat)
  | dropDb (db : String)

/-- The value an engine operation returns to the dispatcher. -/
inductive OpOut where
  | unit
  | deleted (b : Bool)
  | oldValue (v : Option DataValue)
  | newNumber (q : Option Rat)

/-- Outcome of one engine operation: ok with its return value, or the
propagated WAL io error; both carry the engine state afterwards. -/
inductive OpResult where
  | ok (out : OpOut) (e : Engine)
  | walError (e : Engine)

/-- The engine state of an outcome. -/
def engineOfRes : OpResult → Engine
  | OpResult.ok _ e => e
  | OpResult.walError e => e

/-- TinyCache::increment_key_value: log Increment, then apply the cache
increment. Shared by increment and by decrement, which delegates to it. -/
def runIncrement (walFail : Bool) (now : Nat) (db k : String) (a : Rat)
    (e : Engine) : Option OpResult :=
  match log_operation walFail db (WalOp.increment k a) now e with
  | none => some (OpResult.walError e)
  | some e1 =>
    let e2 := ensure_db_exists db e1
    let r := Shard.incrOp now (cache_key_of db k) a (shardOfDb db e2)
    some (OpResult.ok (OpOut.newNumber r.2) { e2 with dbs := setDb db r.1 e2.dbs })

/-- One mutating engine operation of src/db/db.rs: WAL append first, the
in-memory mutation only after the append succeeded. none models the
divergence of the eviction loop inside Cache::insert. -/
def runOp (walFail : Bool) (cfg : EngineCfg) (now : Nat) (op : EngineOp)
    (e : Engine) : Option OpResult :=
  match op with
  | EngineOp.create db k v =>
    let ttl := if cfg.default_ttl_secs > 0 then some cfg.default_ttl_secs
      else compute_expiry now
    match log_operation walFail db (WalOp.create k v ttl) now e with
    | none => some (OpResult.walError e)
    | some e1 =>
      let e2 := ensure_db_exists db e1
      match Shard.insertOp (shard_cfg_of cfg) now (cache_key_of db k) ⟨v, ttl⟩ ttl
          (shardOfDb db e2) with
      | none => none
      | some s2 => some (OpResult.ok OpOut.unit { e2 with dbs := setDb db s2 e2.dbs })
  | EngineOp.createTTL db k v t =>
    match log_operation walFail db (WalOp.create k v (some t)) now e with
    | none => some (OpResult.walError e)
    | some e1 =>
      let e2 := ensure_db_exists db e1
      match Shard.insertOp (shard_cfg_of cfg) now (cache_key_of db k) ⟨v, some t⟩ (some t)
          (shardOfDb db e2) with
      | none => none
      | some s2 => some (OpResult.ok OpOut.unit { e2 with dbs := setDb db s2 e2.dbs })
  | EngineOp.update db k v ttl =>
    match log_operation walFail db (WalOp.update k v ttl) now e with
    | none => some (OpResult.walError e)
    | some e1 =>
      let e2 := ensure_db_exists db e1
      let r := Shard.updateOp now (cache_key_of db k) v ttl (shardOfDb db e2)
      some (OpResult.ok (OpOut.oldValue r.2) { e2 with dbs := setDb db r.1 e2.dbs })
  | EngineOp.delete db k =>
    match log_operation walFail db (WalOp.delete k) now e with
    | none => some (OpResult.walError e)
    | some e1 =>
      let e2 := ensure_db_exists db e1
      let r := Shard.deleteOp (cache_key_of db k) (shardOfDb db e2)
      some (OpResult.ok (OpOut.deleted r.2.isSome) { e2 with dbs := setDb db r.1 e2.dbs })
  | EngineOp.increment db k a => runIncrement walFail now db k a e
  | EngineOp.decrement db k a =>
    match log_operation walFail db (WalOp.decrement k a) now e with
    | none => some (OpResult.walError e)
    | some e1 => runIncrement walFail now db k (-a) e1
  | EngineOp.dropDb db =>
    match log_operation walFail db WalOp.dropDb now e with
    | none => some (OpResult.walError e)
    | some e1 =>
      some (OpResult.ok OpOut.unit
        { e1 with dbs := e1.dbs.filter (fun p => decide (p.1 ≠ db)) })

/-- Run a sequence of engine operations, all at the same clock reading. -/
def runOps (walFail : Bool) (cfg : EngineCfg) (now : Nat) (ops : List EngineOp)
    (e : Engine) : Option Engine :=
  ops.foldlM (fun acc op => (runOp walFail cfg now op acc).map engineOfRes) e

/-- PersistenceManager::replay_operation: entries of other databases are
skipped; matching entries are replayed through the normal engine write
path (which logs again); replay errors are counted and skipped, so the
engine state of a walError outcome is kept and replay continues. -/
def replayOp (cfg : EngineCfg) (now : Nat) (db : String) (entry : WalEntry)
    (e : Engine) : Option Engine :=
  if entry.database = db then
    match entry.operation with
    | WalOp.create k v (some t) =>
      (runOp false cfg now (EngineOp.createTTL db k v t) e).map engineOfRes
    | WalOp.create k v none =>
      (runOp false cfg now (EngineOp.create db k v) e).map engineOfRes
    | WalOp.update k v t =>
      (runOp false cfg now (EngineOp.update db k v t) e).map engineOfRes
    | WalOp.delete k =>
      (runOp false cfg now (EngineOp.delete db k) e).map engineOfRes
    | WalOp.increment k a =>
      (runOp false cfg now (EngineOp.increment db k a) e).map engineOfRes
    | WalOp.decrement k a =>
      (runOp false cfg now (EngineOp.decrement db k a) e).map engineOfRes
    | WalOp.dropDb =>
      (runOp false cfg now (EngineOp.dropDb db) e).map engineOfRes
  else some e

/-- PersistenceManager::recover for one database: replay the WAL
entries, in chronological order, against the given (fresh) engine. -/
def recoverDb (cfg : EngineCfg) (now : Nat) (db : String) (entries : List WalEntry)
    (e : Engine) : Option Engine :=
  entries.foldlM (fun acc entry => replayOp cfg now db entry acc) e

/-- The number stored at a key, when the stored value is a Json number. -/
def numAt (db k : String) (e : Engine) : Option Rat :=
  match lookupDb e.dbs db with
  | some s =>
    match lookupKey s.map (cache_key_of db k) with
    | some item =>
      match item.value.value with
      | DataValue.json (Json.num q) => some q
      | _ => none
    | none => none
  | none => none

/-- The absolute expiry stored at a key. -/
def expiryAt (db k : String) (e : Engine) : Option (Option Nat) :=
  match lookupDb e.dbs db with
  | some s => (lookupKey s.map (cache_key_of db k)).map (fun item => item.expiry)
  | none => none

/-! ## The query pipeline (src/query/query.rs, src/query/middleware.rs,
src/requests/requests.rs, src/utils/response.rs) -/

/-- FilterCondition from src/query/query.rs. -/
structure FilterCondition where
  field : String
  operator : String
  value : Json

mutual

/-- Structural equality of Json values (PartialEq of serde_json::Value;
object comparison is field-list equality, adequate for the values the
claims build). -/
def jsonBeq : Json → Json → Bool
  | Json.null, Json.null => true
  | Json.bool a, Json.bool b => a == b
  | Json.num a, Json.num b => a == b
  | Json.str a, Json.str b => a == b
  | Json.arr a, Json.arr b => jsonListBeq a b
  | Json.obj a, Json.obj b => jsonObjBeq a b
  | _, _ => false

/-- Elementwise equality of Json lists. -/
def jsonListBeq : List Json → List Json → Bool
  | [], [] => true
  | x :: xs, y :: ys => jsonBeq x y && jsonListBeq xs ys
  | _, _ => false

/-- Elementwise equality of Json object field lists. -/
def jsonObjBeq : List (String × Json) → List (String × Json) → Bool
  | [], [] => true
  | x :: xs, y :: ys => x.1 == y.1 && jsonBeq x.2 y.2 && jsonObjBeq xs ys
  | _, _ => false

end

/-- Whether the first list occurs inside the second. -/
def charsInfix (sub : List Char) : List Char → Bool
  | [] => sub.isEmpty
  | c :: rest => charsPre sub (c :: rest) || charsInfix sub rest

/-- Whether one string contains another as a substring. -/
def containsSub (s sub : String) : Bool :=
  charsInfix sub.data s.data

/-- str::ends_with of the source, on character lists. -/
def strEndsWith (s pat : String) : Bool :=
  charsPre pat.data.reverse s.data.reverse

/-- apply_filter from src/query/query.rs. The regex and like operators
translate through the regex crate, which is beyond this embedding; they
are modelled as the conservative false (no claim exercises them). -/
def apply_filter (doc : Json) (cond : FilterCondition) : Bool :=
  match doc.pointer cond.field with
  | some fieldValue =>
    if cond.operator = "eq" then jsonBeq fieldValue cond.value
    else if cond.operator = "neq" then !jsonBeq fieldValue cond.value
    else if cond.operator = "gt" then
      match fieldValue.asF64, cond.value.asF64 with
      | some f, some c => decide (f > c)
      | _, _ => false
    else if cond.operator = "lt" then
      match fieldValue.asF64, cond.value.asF64 with
      | some f, some c => decide (f < c)
      | _, _ => false
    else if cond.operator = "gte" then
      match fieldValue.asF64, cond.value.asF64 with
      | some f, some c => decide (f ≥ c)
      | _, _ => false
    else if cond.operator = "lte" then
      match fieldValue.asF64, cond.value.asF64 with
      | some f, some c => decide (f ≤ c)
      | _, _ => false
    else if cond.operator = "contains" then
      match fieldValue.asStr with
      | some s => containsSub s ((cond.value.asStr).getD (""))
      | none => false
    else if cond.operator = "startsWith" then
      match fieldValue.asStr with
      | some s => strStartsWith s ((cond.value.asStr).getD (""))
      | none => false
    else if cond.operator = "endsWith" then
      match fieldValue.asStr with
      | some s => strEndsWith s ((cond.value.asStr).getD (""))
      | none => false
    else if cond.operator = "in" then
      match cond.value with
      | Json.arr xs => xs.any (fun x => jsonBeq x fieldValue)
      | _ => false
    else if cond.operator = "notin" then
      match cond.value with
      | Json.arr xs => !xs.any (fun x => jsonBeq x fieldValue)
      | _ => false
    else if cond.operator = "exists" then true
    else if cond.operator = "notexists" then false
    else if cond.operator = "between" then
      match cond.value, fieldValue.asF64 with
      | Json.arr xs, some f =>
        if h : xs.length = 2 then
          match (xs.get ⟨0, by omega⟩).asF64, (xs.get ⟨1, by omega⟩).asF64 with
          | some low, some high => decide (f ≥ low) && decide (f ≤ high)
          | _, _ => false
        else false
      | _, _ => false
    else if cond.operator = "isnull" then
      match fieldValue with
      | Json.null => true
      | _ => false
    else false
  | none => cond.operator = "notexists"

/-- The aggregation operations the claims exercise (the full source enum
also has Average, GroupBy, Min, Max, Distinct, TopN, BottomN, Median,
StdDev, Sort and Join; the embedding covers the pipeline fragment the
claims need). -/
inductive AggOp where
  | count
  | sum (field : String)
  | filter (cond : FilterCondition)

/-- The value token of a FILTER clause as requests.rs parses it:
a number when it parses as f64, the raw string otherwise. -/
def parseFilterValue (v : String) : Json :=
  match parseF64 v with
  | some n => Json.num n
  | none => Json.str v

/-- The QUERY token loop of process_shared_requests (requests.rs lines
100-333), restricted to the COUNT, SUM and FILTER operators the claims
exercise. none models the error responses for missing parameters and
unknown operators. -/
def parseQueryOps : List String → Option (List AggOp)
  | [] => some []
  | tok :: rest =>
    if tok = "COUNT" then (parseQueryOps rest).map (fun ops => AggOp.count :: ops)
    else if tok = "SUM" then
      match rest with
      | f :: rest2 => (parseQueryOps rest2).map (fun ops => AggOp.sum f :: ops)
      | [] => none
    else if tok = "FILTER" then
      match rest with
      | f :: op :: v :: rest2 =>
        (parseQueryOps rest2).map (fun ops =>
          AggOp.filter ⟨f, op, parseFilterValue v⟩ :: ops)
      | _ => none
    else none

/-- The working set aggregate starts from: every cached Json value of
the target database, in shard iteration order. -/
def workingSet (database : String) (s : Shard) : List Json :=
  s.map.filterMap (fun kv =>
    if kv.1.database = database then
      match kv.2.value.value with
      | DataValue.json j => some j
      | _ => none
    else none)

/-- result[key] = value on the output object: replace an existing field
or append (the two coincide for the claims, whose keys are distinct and
alphabetically ordered the way the BTreeMap of serde_json would order
them). -/
def setField (res : List (String × Json)) (k : String) (v : Json) : List (String × Json) :=
  match res with
  | [] => [(k, v)]
  | kv :: rest => if kv.1 = k then (k, v) :: rest else kv :: setField rest k v

/-- The SUM accumulation of aggregate (query.rs lines 268-277): pointer,
then as_str, then parse::&lt;f64&gt;, summed; values that are not strings
parsing as numbers contribute nothing. -/
def sumField (fd : List Json) (f : String) : Rat :=
  (fd.filterMap (fun doc => ((doc.pointer f).bind Json.asStr).bind parseF64)).foldl
    (fun a b => f64Add a b) 0

/-- One operation of the aggregate loop, acting on the working set and
the result object. -/
def aggStep (state : List Json × List (String × Json)) (op : AggOp) :
    List Json × List (String × Json) :=
  match op with
  | AggOp.filter cond => (state.1.filter (fun doc => apply_filter doc cond), state.2)
  | AggOp.count => (state.1, setField state.2 ("count") (Json.num state.1.length))
  | AggOp.sum f =>
    (state.1,
      setField state.2 (("sum_") ++ (strReplace f ("/") ("_"))) (Json.num (sumField state.1 f)))

/-- aggregate from src/query/query.rs on the operations the claims
exercise: fold the operations over the working set of the database. -/
def aggregate (database : String) (s : Shard) (ops : List AggOp) : List (String × Json) :=
  (ops.foldl aggStep (workingSet database s, [])).2

/-- ResponseData from src/utils/response.rs (the variants the claims
touch). -/
inductive ResponseData where
  | string (s : String)
  | json (j : Json)

/-- Response from src/utils/response.rs. -/
structure Response where
  status : String
  message : Option String
  data : Option ResponseData

/-- Response::success. -/
def Response.success (d : ResponseData) : Response :=
  ⟨"success", none, some d⟩

/-- Response::error. -/
def Response.error (msg : String) : Response :=
  ⟨"error", some msg, none⟩

/-- query_security_middleware from src/query/middleware.rs: reject when
the normalized query references db: or contains a suspicious character
sequence. -/
def query_security_middleware (database rawQuery : String) : Bool :=
  let db := lowerStr database
  let raw := lowerStr rawQuery
  if containsSub raw (("db:") ++ db) || containsSub raw ("db:") then false
  else if [";", "--", "/*", "*/", ".."].any (fun c => containsSub raw c) then false
  else true

/-- The QUERY arm of process_shared_requests: middleware, then the token
loop, then aggregate, framed as a success envelope. -/
def runQueryCommand (database : String) (s : Shard) (tokens : List String) : Response :=
  let raw := String.intercalate (" ") (("QUERY") :: tokens)
  if query_security_middleware database raw then
    match tokens with
    | [] => Response.error ("MISSING_OPERATIONS")
    | _ =>
      match parseQueryOps tokens with
      | some ops => Response.success (ResponseData.json (Json.obj (aggregate database s ops)))
      | none => Response.error ("UNKNOWN_OPERATION")
  else Response.error ("Invalid query")

/-- The numeric field of an object-shaped Json value, for decidable
statements about query results. -/
def jsonNumField (j : Json) (k : String) : Option Rat :=
  match j with
  | Json.obj fields =>
    match fields.find? (fun kv => decide (kv.1 = k)) with
    | some kv =>
      match kv.2 with
      | Json.num q => some q
      | _ => none
    | none => none
  | _ => none

/-- The numeric field of the Json payload of a response. -/
def responseNumField (r : Response) (k : String) : Option Rat :=
  match r.data with
  | some (ResponseData.json j) => jsonNumField j k
  | _ => none

/-! ## Derived notions the claims are stated with -/

/-- The cache operations of claim C4: the shard-level mutators plus the
two phases of eviction (the reap pass and one iteration of the policy
loop, the latter including its entry condition). -/
inductive ShardOp where
  | insert (k : CacheKey) (v : CacheValue) (ttl : Option Nat)
  | get (k : CacheKey)
  | update (k : CacheKey) (v : DataValue) (ttl : Option Nat)
  | delete (k : CacheKey)
  | incr (k : CacheKey) (amount : Rat)
  | reap
  | evictIter

/-- Apply one shard operation. none only when the eviction loop inside
insert diverges. The evictIter case runs one iteration of the eviction
loop: nothing happens below the cap, and the LRU break leaves the shard
unchanged. -/
def applyShardOp (cfg : ShardCfg) (now : Nat) (op : ShardOp) (s : Shard) : Option Shard :=
  match op with
  | ShardOp.insert k v ttl => Shard.insertOp cfg now k v ttl s
  | ShardOp.get k => some (Shard.getOp now k s).1
  | ShardOp.update k v ttl => some (Shard.updateOp now k v ttl s).1
  | ShardOp.delete k => some (Shard.deleteOp k s).1
  | ShardOp.incr k a => some (Shard.incrOp now k a s).1
  | ShardOp.reap => some (reapExpired now s)
  | ShardOp.evictIter =>
    some (if s.map.length ≥ cfg.cap then
      match evictBody cfg now s with
      | some s2 => s2
      | none => s
    else s)

/-- Occurrences of a key in a recency queue. -/
def countK (k : CacheKey) : List CacheKey → Nat
  | [] => 0
  | a :: rest => (if a = k then 1 else 0) + countK k rest

/-- The exactly-once invariant of claim C4: every key of the map is in
the recency queue exactly once, and queue keys are map keys. -/
def shardInv (s : Shard) : Prop :=
  ∀ k : CacheKey, countK k s.queue = (if containsKey s.map k then 1 else 0)

/-- Modelled from the claim wording of C5 (spec §4.1 eviction step): on
the sorted candidate list, pick the first item below the frequency
threshold and older than the time threshold; failing that the first item
below the frequency threshold; failing that the first item. For
comparison with the scan-and-remove shape of the source. -/
def lfruSpecChoice (cfg : ShardCfg) (now : Nat) (cands : List Cand) : Option CacheKey :=
  match cands.find? (fun c =>
      decide (c.frequency < cfg.frequency_threshold) &&
      decide (now - c.last_access > cfg.time_threshold)) with
  | some c => some c.key
  | none =>
    match cands.find? (fun c => decide (c.frequency < cfg.frequency_threshold)) with
    | some c => some c.key
    | none => cands.head?.map Cand.key

/-- Termination of the eviction loop of Cache::evict_shard on a shard:
some fuel makes the fueled loop exit. -/
def EvictTerminates (cfg : ShardCfg) (now : Nat) (s : Shard) : Prop :=
  ∃ fuel, (evictLoopF cfg now fuel s).isSome

/-! ## Concrete instances the counterexamples and witnesses evaluate -/

/-- Engine configuration for the recovery scenario: cap 100, LFRU, one
shard, default ttl 60 s. -/
def c1cfg : EngineCfg := ⟨100, Policy.lfru, 1, 60⟩

/-- The mutation sequence S of the C1 failing input: create k as the
Json number 10, then decrement k by 1. -/
def c1ops : List EngineOp :=
  [EngineOp.create ("d") ("k") (DataValue.json (Json.num 10)),
   EngineOp.decrement ("d") ("k") 1]

/-- The engine state after S. -/
def c1afterS : Engine := (runOps false c1cfg 0 c1ops Engine.empty).getD Engine.empty

/-- The engine recovered by replaying the WAL that S wrote against a
fresh empty store. -/
def c1recovered : Engine :=
  (recoverDb c1cfg 0 ("d") c1afterS.wal Engine.empty).getD Engine.empty

/-- Engine configuration with default_ttl_secs = 0, for claim C7. -/
def c7cfg : EngineCfg := ⟨100, Policy.lfru, 1, 0⟩

/-- One default-TTL create at Unix time 1000000 under default_ttl_secs
zero. -/
def c7run : Engine :=
  (runOps false c7cfg 1000000 [EngineOp.create ("d") ("k") (DataValue.json Json.null)]
    Engine.empty).getD Engine.empty

/-- An engine with an empty WAL holding the single key k with the Json
number 10, for counting the entries one decrement appends. -/
def c8eng : Engine :=
  ⟨[(("d"), ⟨[(⟨"d", "k"⟩, ⟨⟨DataValue.json (Json.num 10), none⟩, 0, none, 0, 1⟩)],
      [⟨"d", "k"⟩]⟩)], []⟩

/-- One stored document of the C9 scenario. -/
def c9item (name : String) (age : Nat) : CacheKey × CacheItem :=
  (⟨"d", name⟩, ⟨⟨DataValue.json (Json.obj [(("age"), Json.num age)]), none⟩, 0, none, 0, 1⟩)

/-- The shard holding exactly the three documents of the C9 scenario. -/
def c9shard : Shard :=
  ⟨[c9item ("k1") 20, c9item ("k2") 30, c9item ("k3") 40],
    [⟨"d", "k1"⟩, ⟨"d", "k2"⟩, ⟨"d", "k3"⟩]⟩

/-- The token list of the C9 command QUERY FILTER /age gte 30 COUNT SUM
/age. -/
def c9tokens : List String :=
  [("FILTER"), ("/age"), ("gte"), ("30"), ("COUNT"), ("SUM"), ("/age")]

/-- The response of the C9 command. -/
def c9resp : Response := runQueryCommand ("d") c9shard c9tokens

/-- The cache key of several single-key scenarios. -/
def kC : CacheKey := ⟨"d", "k"⟩

/-- A string item whose expiry is exactly 100, accessed at now = 100. -/
def c6shard1 : Shard := ⟨[(kC, ⟨⟨DataValue.string ("x"), none⟩, 0, some 100, 0, 1⟩)], [kC]⟩

/-- A string item whose expiry 5 is long past at now = 100. -/
def c6shard2 : Shard := ⟨[(kC, ⟨⟨DataValue.string ("x"), none⟩, 0, some 5, 0, 1⟩)], [kC]⟩

/-- A numeric string item whose expiry 5 is long past at now = 100. -/
def c6shard3 : Shard := ⟨[(kC, ⟨⟨DataValue.string ("10"), none⟩, 0, some 5, 0, 1⟩)], [kC]⟩

/-- The string value of a returned CacheValue, for decidable statements. -/
def cvStr : Option CacheValue → Option String
  | some v =>
    match v.value with
    | DataValue.string s => some s
    | _ => none
  | none => none

/-- The string value of a returned DataValue, for decidable statements. -/
def dvStr : Option DataValue → Option String
  | some (DataValue.string s) => some s
  | _ => none

/-- A shard configuration with cap 100 and policy LFRU, the thresholds
of the source. -/
def c4cfg : ShardCfg := ⟨100, Policy.lfru, 5, 3600⟩

/-- The shard after inserting kC into an empty shard. -/
def c4s1 : Shard :=
  (Shard.insertOp c4cfg 0 kC ⟨DataValue.string ("a"), none⟩ none Shard.empty).getD Shard.empty

/-- The shard after inserting kC a second time: the map still holds one
entry but the queue now holds kC twice. -/
def c4s2 : Shard :=
  (Shard.insertOp c4cfg 0 kC ⟨DataValue.string ("b"), none⟩ none c4s1).getD Shard.empty

/-- The shard the invariant-preservation witness checks: kC inserted
into the empty shard. -/
def c4w : Shard :=
  (applyShardOp c4cfg 0 (ShardOp.insert kC ⟨DataValue.string ("a"), none⟩ none)
    Shard.empty).getD Shard.empty

/-- A two-item shard for the LFRU selection witness: k1 has frequency 1
and last_access 0 (old and cold), k2 has frequency 9. -/
def c5shard : Shard :=
  ⟨[(⟨"d", "k1"⟩, ⟨⟨DataValue.string ("a"), none⟩, 0, none, 0, 1⟩),
    (⟨"d", "k2"⟩, ⟨⟨DataValue.string ("b"), none⟩, 0, none, 0, 9⟩)],
    [⟨"d", "k1"⟩, ⟨"d", "k2"⟩]⟩

/-- A shard configuration with the LFRU policy and cap 1. -/
def c5cfg : ShardCfg := ⟨1, Policy.lfru, 5, 3600⟩

/-- The configuration of the C10 counterexample: per-shard cap 0 (from
max_size below the shard count) with the LFU policy. -/
def c10cfg : ShardCfg := ⟨0, Policy.lfu, 5, 3600⟩

/-- A one-item shard under a cap-1 LFU configuration, for the
termination witness. -/
def c10wshard : Shard := ⟨[(kC, ⟨⟨DataValue.string ("a"), none⟩, 0, none, 0, 1⟩)], [kC]⟩

/-- A shard configuration with the LFU policy and cap 1. -/
def c10wcfg : ShardCfg := ⟨1, Policy.lfu, 5, 3600⟩

/-! ## Theorems -/

/-- Claim C1: replaying the WAL produced by a mutation sequence against a
fresh empty store does not always reconstruct the state after the
sequence: after S = [create k := 10, decrement k by 1] the store holds
k = 9, but the WAL S wrote (a Create, then both a Decrement and the
Increment that decrement_key_value additionally logs by delegating to
increment_key_value) replays to k = 8 - the decrement is applied twice. -/
theorem c1_decrement_replay_divergence :
    numAt ("d") ("k") c1afterS = some 9 ∧
    numAt ("d") ("k") c1recovered = some 8 ∧
    c1afterS.wal.map (fun entry => walTag entry.operation) =
      [WalTag.create, WalTag.decrement, WalTag.increment] := by
  refine ⟨by decide, by decide, by decide⟩

/-- Claim C2: under the everysec policy the append path divides the
seconds-valued compute_now_timestamp by 1000 before comparing it with
last_sync (itself stored divided by 1000). A manager created at t = 500 s
syncs on an append at t = 1000 s, but an append 500 seconds later at
t = 1500 s performs no data-sync, although the current whole-second time
1500 is strictly greater than the time 1000 of the last sync - so the
claimed one-second loss bound does not hold (the code loses up to about
1000 seconds). -/
theorem c2_everysec_skips_sync_after_500s :
    (appendSyncStep ("everysec") 1000 (walManagerInitLastSync 500)).1 = true ∧
    (appendSyncStep ("everysec") 1500
      (appendSyncStep ("everysec") 1000 (walManagerInitLastSync 500)).2).1 = false ∧
    1000 < 1500 := by
  refine ⟨by decide, by decide, by decide⟩

/-- Claim C7: with default_ttl_secs = 0, create_key_value at Unix time
1000000 stores the absolute expiry 2604800 = now + (now + 604800), not
the claimed now + 604800 = 1604800: compute_expiry returns the absolute
time now + 7 days packaged as a Duration, and the insert path adds now
to it again. The logged Create entry likewise carries the ttl 1604800
seconds instead of the claimed 604800. -/
theorem c7_zero_ttl_expiry_double_now :
    expiryAt ("d") ("k") c7run = some (some 2604800) ∧
    2604800 ≠ 1000000 + 604800 ∧
    c7run.wal.map (fun entry => walCreateTtl entry.operation) = [some (some 1604800)] ∧
    (1604800 : Nat) ≠ 604800 := by
  refine ⟨by decide, by decide, by decide, by decide⟩

/-- Claim C8 counterexample: one call to decrement_key_value(d, k, 1) on
a store holding k appends two WAL entries - a Decrement and then an
Increment with the negated amount - not exactly one Decrement record as
claimed. -/
theorem c8_decrement_appends_two_entries :
    (runOp false c1cfg 0 (EngineOp.decrement ("d") ("k") 1) c8eng).map
      (fun r => (engineOfRes r).wal.map (fun entry => walTag entry.operation)) =
      some [WalTag.decrement, WalTag.increment] ∧
    [WalTag.decrement, WalTag.increment] ≠ [WalTag.decrement] := by
  refine ⟨by decide, by decide⟩

/-- Claim C9 counterexample: with exactly the documents with age 20, 30
and 40 stored, QUERY FILTER /age gte 30 COUNT SUM /age returns a success
envelope whose data has count = 2 but no sum_age field at all (the SUM
key is sum__age, the slash replaced by an underscore) and whose sum is
0, not 70: the SUM aggregation coerces via as_str, so Json numbers
contribute nothing. -/
theorem c9_sum_age_not_70 :
    c9resp.status = ("success") ∧
    responseNumField c9resp ("count") = some 2 ∧
    responseNumField c9resp ("sum_age") = none ∧
    responseNumField c9resp ("sum__age") = some 0 ∧
    responseNumField c9resp ("sum__age") ≠ some 70 := by
  refine ⟨by decide, by decide, by decide, by decide, by decide⟩

/-- Claim C9 as it holds on the code: the command returns a success
envelope whose Json data is exactly the object with count = 2 and
sum__age = 0. -/
theorem c9_amended_query_result :
    c9resp = Response.success (ResponseData.json
      (Json.obj [(("count"), Json.num 2), (("sum__age"), Json.num 0)])) := by
  rfl

/-- Claim C4 counterexample: inserting the same key twice (a plain
overwrite through create_key_value) leaves the key once in the map but
twice in the recency queue, violating the exactly-once invariant. -/
theorem c4_insert_existing_key_duplicates_queue :
    countK kC c4s2.queue = 2 ∧
    c4s2.map.length = 1 ∧
    containsKey c4s2.map kC = true ∧
    ¬ shardInv c4s2 := by
  refine ⟨by decide, by decide, by decide, ?_⟩
  intro h
  have := h kC
  revert this
  decide

/-- Claim C6 counterexample: the code treats a key as live at the exact
expiry boundary and never consults expiry in update and incr. At
now = 100, get on an item with expiry exactly 100 is a hit (the claim
says expiry less than or equal to now is a miss); update on an item
expired at 5 returns the old value and incr on an expired numeric item
returns the new number (the claim says both return none). -/
theorem c6_expiry_boundary_and_update_incr :
    cvStr (Shard.getOp 100 kC c6shard1).2 = some ("x") ∧
    dvStr (Shard.updateOp 100 kC (DataValue.string ("y")) none c6shard2).2 = some ("x") ∧
    (Shard.incrOp 100 kC 2 c6shard3).2 = some 12 := by
  refine ⟨by decide, by decide, by decide⟩

/-- The mkRat form of addition used by the model is plain rational
addition. -/
theorem f64Add_eq_add (a b : Rat) : f64Add a b = a + b :=
  (Rat.add_def' a b).symm

/-- Helper: ensure_db_exists does not touch the WAL. -/
theorem ensure_db_wal (db : String) (e : Engine) :
    (ensure_db_exists db e).wal = e.wal := by
  unfold ensure_db_exists
  split <;> rfl

/-- Helper: the registry after ensure_db_exists depends only on the
registry before it. -/
theorem shardOfDb_ensure_congr (db : String) (e1 e2 : Engine) (h : e1.dbs = e2.dbs) :
    shardOfDb db (ensure_db_exists db e1) = shardOfDb db (ensure_db_exists db e2) := by
  unfold shardOfDb ensure_db_exists
  by_cases hc : (lookupDb e1.dbs db).isSome
  · rw [if_pos hc, if_pos (h ▸ hc), h]
  · rw [if_neg hc, if_neg (h ▸ hc)]
    simp [h]

/-- Claim C3: for every mutating engine operation, when the WAL append
fails the operation returns the propagated error and the engine state -
the in-memory registry and the WAL - is exactly the state before the
call: every mutator of src/db/db.rs logs before touching the cache. -/
theorem c3_wal_failure_leaves_state_unchanged (cfg : EngineCfg) (now : Nat)
    (op : EngineOp) (e : Engine) :
    runOp true cfg now op e = some (OpResult.walError e) := by
  cases op <;> simp [runOp, runIncrement, log_operation]

/-- Claim C8 as it holds on the code: decrement_key_value appends
exactly two WAL entries - the Decrement, then the Increment with the
negated amount that its delegation to increment_key_value logs - before
the single cache mutation, and returns the result of the cache increment
by the negated amount. -/
theorem c8_amended_decrement_two_wal_entries (cfg : EngineCfg) (now : Nat)
    (db k : String) (a : Rat) (e : Engine) :
    ∃ r e2, runOp false cfg now (EngineOp.decrement db k a) e =
        some (OpResult.ok (OpOut.newNumber r) e2) ∧
      e2.wal = e.wal ++ [⟨db, WalOp.decrement k a, now⟩, ⟨db, WalOp.increment k (-a), now⟩] ∧
      r = (Shard.incrOp now (cache_key_of db k) (-a) (shardOfDb db (ensure_db_exists db e))).2 := by
  refine ⟨_, _, rfl, ?_, ?_⟩
  · show (ensure_db_exists db _).wal = _
    rw [ensure_db_wal]
    exact List.append_assoc _ _ _
  · exact congrArg (fun s => (Shard.incrOp now (cache_key_of db k) (-a) s).2)
      (shardOfDb_ensure_congr db _ e rfl)

/-- Helper: under the cap-0 LFU configuration the eviction loop never
exits from the empty shard, whatever the fuel: the loop condition
0 at least 0 holds and the body returns the shard unchanged. -/
theorem c10_loop_stuck (n : Nat) :
    evictLoopF c10cfg 0 n Shard.empty = none := by
  induction n with
  | zero => rfl
  | succ m ih =>
    have hb : evictBody c10cfg 0 Shard.empty = some Shard.empty := rfl
    simp only [evictLoopF, hb]
    rw [if_pos (by decide)]
    exact ih

/-- Claim C10 counterexample: with per-shard cap 0 (max_size below the
shard count makes max_size / shard_count = 0) and the LFU policy, the
eviction loop on the empty shard never terminates: the condition
size at least cap always holds and the LFU branch has no break, so no
fuel makes the loop exit. -/
theorem c10_eviction_divergence_cap_zero :
    EvictTerminates c10cfg 0 Shard.empty ↔ False := by
  constructor
  · rintro ⟨n, hn⟩
    rw [c10_loop_stuck n] at hn
    simp at hn
  · exact False.elim

/-- Helper: containsKey on a cons. -/
theorem containsKey_cons (kv : CacheKey × CacheItem) (rest : List (CacheKey × CacheItem))
    (k : CacheKey) :
    containsKey (kv :: rest) k = (decide (kv.1 = k) || containsKey rest k) := by
  by_cases h : kv.1 = k <;> simp [containsKey, lookupKey, h]

/-- Helper: erasing a present key strictly shrinks the map. -/
theorem eraseKey_length_lt (k : CacheKey) (m : List (CacheKey × CacheItem))
    (h : containsKey m k = true) : (eraseKey k m).length < m.length := by
  induction m with
  | nil => simp [containsKey, lookupKey] at h
  | cons kv rest ih =>
    by_cases hk : kv.1 = k
    · have hstep : eraseKey k (kv :: rest) = eraseKey k rest := by
        simp [eraseKey, List.filter_cons, hk]
      rw [hstep]
      have hle := List.length_filter_le (fun kv => decide (kv.1 ≠ k)) rest
      simp only [eraseKey] at *
      simp only [List.length_cons]
      omega
    · have hrest : containsKey rest k = true := by
        rw [containsKey_cons] at h
        simpa [hk] using h
      have hstep : eraseKey k (kv :: rest) = kv :: eraseKey k rest := by
        simp [eraseKey, List.filter_cons, hk]
      rw [hstep]
      simpa using Nat.succ_lt_succ (ih hrest)

/-- Helper: the key min_by_key returns is in the map. -/
theorem minByFreqAux_contains (m : List (CacheKey × CacheItem)) (best : CacheKey × Nat)
    (h : minByFreqAux m = some best) : containsKey m best.1 = true := by
  induction m generalizing best with
  | nil => simp [minByFreqAux] at h
  | cons kv rest ih =>
    cases hrec : minByFreqAux rest with
    | none =>
      have h2 : some (kv.1, kv.2.frequency) = some best := by
        rw [minByFreqAux, hrec] at h
        exact h
      cases h2
      simp [containsKey_cons]
    | some b2 =>
      have h2 : (if kv.2.frequency ≤ b2.2 then some (kv.1, kv.2.frequency) else some b2) =
          some best := by
        rw [minByFreqAux, hrec] at h
        exact h
      by_cases hle : kv.2.frequency ≤ b2.2
      · rw [if_pos hle] at h2
        cases h2
        simp [containsKey_cons]
      · rw [if_neg hle] at h2
        cases h2
        rw [containsKey_cons, ih _ hrec]
        simp

/-- Helper: min_by_key on a nonempty map returns something. -/
theorem minByFreqAux_isSome (m : List (CacheKey × CacheItem)) (h : m ≠ []) :
    (minByFreqAux m).isSome := by
  cases m with
  | nil => exact absurd rfl h
  | cons kv rest =>
    simp only [minByFreqAux]
    cases hrec : minByFreqAux rest with
    | none => simp [hrec]
    | some b2 => by_cases hle : kv.2.frequency ≤ b2.2 <;> simp [hrec, hle]

/-- Helper: the key the first LFRU scan returns occurs in the scanned
list. -/
theorem lfruScanBoth_mem (cfg : ShardCfg) (now : Nat) (l : List Cand) (k : CacheKey)
    (h : lfruScanBoth cfg now l = some k) : k ∈ l.map Cand.key := by
  induction l with
  | nil => simp [lfruScanBoth] at h
  | cons c rest ih =>
    rw [lfruScanBoth] at h
    split at h
    · cases h; simp
    · simpa using Or.inr (ih h)

/-- Helper: the key the second LFRU scan returns occurs in the scanned
list. -/
theorem lfruScanFreq_mem (cfg : ShardCfg) (l : List Cand) (k : CacheKey)
    (h : lfruScanFreq cfg l = some k) : k ∈ l.map Cand.key := by
  induction l with
  | nil => simp [lfruScanFreq] at h
  | cons c rest ih =>
    rw [lfruScanFreq] at h
    split at h
    · cases h; simp
    · simpa using Or.inr (ih h)

/-- Helper: the sorted candidate list is a permutation of the candidate
list. -/
theorem sortCands_perm (l : List Cand) : (sortCands l).Perm l :=
  List.perm_insertionSort candLE l

/-- Helper: candidate keys are map keys. -/
theorem candidatesOf_keys (s : Shard) :
    (candidatesOf s).map Cand.key = s.map.map Prod.fst := by
  simp [candidatesOf, List.map_map]

/-- Helper: a key of the map key list is contained in the map. -/
theorem containsKey_of_mem_keys (m : List (CacheKey × CacheItem)) (k : CacheKey)
    (h : k ∈ m.map Prod.fst) : containsKey m k = true := by
  induction m with
  | nil => simp at h
  | cons kv rest ih =>
    rw [List.map_cons, List.mem_cons] at h
    rw [containsKey_cons]
    rcases h with h1 | h1
    · simp [h1.symm]
    · rw [ih h1]
      simp

/-- Helper: a key of the sorted candidate list of a shard is contained
in the shard map. -/
theorem containsKey_of_mem_sorted (s : Shard) (k : CacheKey)
    (h : k ∈ (sortCands (candidatesOf s)).map Cand.key) :
    containsKey s.map k = true := by
  apply containsKey_of_mem_keys
  rw [← candidatesOf_keys]
  exact ((sortCands_perm (candidatesOf s)).map Cand.key).mem_iff.mp h

/-- Helper: every non-breaking iteration of the eviction loop above a
positive cap strictly shrinks the combined size of map and queue. -/
theorem evictBody_progress (cfg : ShardCfg) (now : Nat) (s : Shard)
    (hcap : 1 ≤ cfg.cap) (hge : s.map.length ≥ cfg.cap) :
    evictBody cfg now s = none ∨
      ∃ s2, evictBody cfg now s = some s2 ∧ evictMeasure s2 < evictMeasure s := by
  have hmapne : s.map ≠ [] := by
    intro hnil
    rw [hnil] at hge
    simp at hge
    omega
  have hremove : ∀ k, containsKey s.map k = true →
      evictMeasure (removeKey k s) < evictMeasure s := by
    intro k hk
    have h1 := eraseKey_length_lt k s.map hk
    have h2 := List.length_filter_le (fun q => decide (q ≠ k)) s.queue
    simp only [evictMeasure, removeKey]
    omega
  cases hpol : cfg.policy with
  | lru =>
    cases hq : s.queue with
    | nil =>
      left
      simp [evictBody, hpol, hq]
    | cons k rest =>
      right
      refine ⟨removeKey k ⟨s.map, rest⟩, by simp [evictBody, hpol, hq], ?_⟩
      have h1 := List.length_filter_le (fun kv => decide (kv.1 ≠ k)) s.map
      have h2 := List.length_filter_le (fun q => decide (q ≠ k)) rest
      simp only [evictMeasure, removeKey, eraseKey, hq]
      simp only [List.length_cons]
      omega
  | lfu =>
    right
    obtain ⟨best, hbest⟩ := Option.isSome_iff_exists.mp (minByFreqAux_isSome s.map hmapne)
    refine ⟨removeKey best.1 s, by simp [evictBody, hpol, hbest], ?_⟩
    exact hremove best.1 (minByFreqAux_contains s.map best hbest)
  | lfru =>
    right
    cases hscan1 : lfruScanBoth cfg now (sortCands (candidatesOf s)) with
    | some k =>
      refine ⟨removeKey k s, by simp [evictBody, hpol, hscan1], ?_⟩
      exact hremove k (containsKey_of_mem_sorted s k
        (lfruScanBoth_mem cfg now _ k hscan1))
    | none =>
      cases hscan2 : lfruScanFreq cfg (sortCands (candidatesOf s)) with
      | some k =>
        refine ⟨removeKey k s, by simp [evictBody, hpol, hscan1, hscan2], ?_⟩
        exact hremove k (containsKey_of_mem_sorted s k
          (lfruScanFreq_mem cfg _ k hscan2))
      | none =>
        cases hsorted : sortCands (candidatesOf s) with
        | nil =>
          exfalso
          have hlen := (sortCands_perm (candidatesOf s)).length_eq
          rw [hsorted] at hlen
          have hcand : candidatesOf s = [] := List.eq_nil_of_length_eq_zero hlen.symm
          rw [candidatesOf] at hcand
          exact hmapne (List.map_eq_nil_iff.mp hcand)
        | cons c rest =>
          rw [hsorted] at hscan1 hscan2
          refine ⟨removeKey c.key s,
            by simp [evictBody, hpol, hscan1, hscan2, hsorted], ?_⟩
          apply hremove c.key
          apply containsKey_of_mem_sorted s c.key
          rw [hsorted]
          simp

/-- Helper: with a positive cap, fuel exceeding the measure makes the
eviction loop exit. -/
theorem evictLoopF_terminates (cfg : ShardCfg) (now : Nat) (hcap : 1 ≤ cfg.cap) :
    ∀ n s, evictMeasure s < n → (evictLoopF cfg now n s).isSome := by
  intro n
  induction n with
  | zero =>
    intro s h
    omega
  | succ m ih =>
    intro s hm
    rw [evictLoopF]
    by_cases hge : s.map.length ≥ cfg.cap
    · rw [if_pos hge]
      rcases evictBody_progress cfg now s hcap hge with hnone | ⟨s2, hs2, hlt⟩
      · rw [hnone]
        rfl
      · rw [hs2]
        exact ih s2 (by omega)
    · rw [if_neg hge]
      rfl

/-- Claim C10 as it holds on the code: Cache::evict_shard terminates for
every shard contents and every policy whenever the per-shard cap
max_size / shard_count is at least 1 (with cap 0, the counterexample
shows the LFU - and likewise the LFRU - loop runs forever once the
shard is empty; only the LRU branch breaks). -/
theorem c10_amended_eviction_terminates_cap_pos (cfg : ShardCfg) (now : Nat) (s : Shard)
    (hcap : 1 ≤ cfg.cap) : (evict_shard cfg now s).isSome := by
  unfold evict_shard
  exact evictLoopF_terminates cfg now hcap _ _ (Nat.lt_succ_self _)

/-- Witness for c10_amended_eviction_terminates_cap_pos at a concrete
cap-1 LFU configuration and a one-item shard. -/
theorem c10_amended_eviction_terminates_witness :
    1 ≤ c10wcfg.cap ∧ (evict_shard c10wcfg 0 c10wshard).isSome :=
  ⟨by decide, c10_amended_eviction_terminates_cap_pos c10wcfg 0 c10wshard (by decide)⟩

/-- Helper: the first LFRU scan is find? on the combined predicate. -/
theorem lfruScanBoth_eq_find (cfg : ShardCfg) (now : Nat) (l : List Cand) :
    lfruScanBoth cfg now l =
      (l.find? (fun c => decide (c.frequency < cfg.frequency_threshold) &&
        decide (now - c.last_access > cfg.time_threshold))).map Cand.key := by
  induction l with
  | nil => rfl
  | cons c rest ih =>
    by_cases h1 : c.frequency < cfg.frequency_threshold <;>
      by_cases h2 : now - c.last_access > cfg.time_threshold <;>
      simp [lfruScanBoth, List.find?, h1, h2, ih]

/-- Helper: the second LFRU scan is find? on the frequency predicate. -/
theorem lfruScanFreq_eq_find (cfg : ShardCfg) (l : List Cand) :
    lfruScanFreq cfg l =
      (l.find? (fun c => decide (c.frequency < cfg.frequency_threshold))).map Cand.key := by
  induction l with
  | nil => rfl
  | cons c rest ih =>
    by_cases h1 : c.frequency < cfg.frequency_threshold <;>
      simp [lfruScanFreq, List.find?, h1, ih]

/-- Claim C5: on a nonempty shard under the LFRU policy, one iteration
of the eviction loop removes exactly one item, the one the claim
describes: on the candidate list sorted ascending by frequency with ties
broken by larger last_access first (the sort is a permutation of the
candidates, sorted for that order), the first item below the frequency
threshold and older than the time threshold; failing that the first item
below the frequency threshold; failing that the first item. -/
theorem c5_lfru_selection (cfg : ShardCfg) (now : Nat) (s : Shard)
    (hpol : cfg.policy = Policy.lfru) (hne : s.map ≠ []) :
    ∃ k, lfruSpecChoice cfg now (sortCands (candidatesOf s)) = some k ∧
      evictBody cfg now s = some (removeKey k s) ∧
      (removeKey k s).map.length < s.map.length ∧
      (sortCands (candidatesOf s)).Perm (candidatesOf s) ∧
      (sortCands (candidatesOf s)).Sorted candLE := by
  have hperm := sortCands_perm (candidatesOf s)
  have hsortedp : (sortCands (candidatesOf s)).Sorted candLE :=
    List.sorted_insertionSort candLE (candidatesOf s)
  have hlt : ∀ k, containsKey s.map k = true →
      (removeKey k s).map.length < s.map.length := by
    intro k hk
    simpa [removeKey] using eraseKey_length_lt k s.map hk
  cases hscan1 : lfruScanBoth cfg now (sortCands (candidatesOf s)) with
  | some k =>
    refine ⟨k, ?_, by simp [evictBody, hpol, hscan1],
      hlt k (containsKey_of_mem_sorted s k (lfruScanBoth_mem cfg now _ k hscan1)),
      hperm, hsortedp⟩
    have hfind := hscan1
    rw [lfruScanBoth_eq_find] at hfind
    obtain ⟨c, hc, hck⟩ := Option.map_eq_some'.mp hfind
    simp [lfruSpecChoice, hc, hck]
  | none =>
    have hfind1 : (sortCands (candidatesOf s)).find?
        (fun c => decide (c.frequency < cfg.frequency_threshold) &&
          decide (now - c.last_access > cfg.time_threshold)) = none := by
      have := hscan1
      rw [lfruScanBoth_eq_find] at this
      exact Option.map_eq_none'.mp this
    cases hscan2 : lfruScanFreq cfg (sortCands (candidatesOf s)) with
    | some k =>
      refine ⟨k, ?_, by simp [evictBody, hpol, hscan1, hscan2],
        hlt k (containsKey_of_mem_sorted s k (lfruScanFreq_mem cfg _ k hscan2)),
        hperm, hsortedp⟩
      have hfind := hscan2
      rw [lfruScanFreq_eq_find] at hfind
      obtain ⟨c, hc, hck⟩ := Option.map_eq_some'.mp hfind
      simp [lfruSpecChoice, hfind1, hc, hck]
    | none =>
      have hfind2 : (sortCands (candidatesOf s)).find?
          (fun c => decide (c.frequency < cfg.frequency_threshold)) = none := by
        have := hscan2
        rw [lfruScanFreq_eq_find] at this
        exact Option.map_eq_none'.mp this
      cases hs : sortCands (candidatesOf s) with
      | nil =>
        exfalso
        have hlen := hperm.length_eq
        rw [hs] at hlen
        have hcand : candidatesOf s = [] := List.eq_nil_of_length_eq_zero hlen.symm
        rw [candidatesOf] at hcand
        exact hne (List.map_eq_nil_iff.mp hcand)
      | cons c rest =>
        have hck : containsKey s.map c.key = true := by
          apply containsKey_of_mem_sorted s c.key
          rw [hs]
          simp
        refine ⟨c.key, ?_, ?_, hlt c.key hck, hs ▸ hperm, hs ▸ hsortedp⟩
        · rw [hs] at hfind1 hfind2
          simp [lfruSpecChoice, hfind1, hfind2]
        · rw [hs] at hscan1 hscan2
          simp [evictBody, hpol, hs, hscan1, hscan2]

/-- Witness for c5_lfru_selection on a two-item shard (frequencies 1 and
9, both recent) under the LFRU configuration with cap 1. -/
theorem c5_lfru_selection_witness :
    ∃ k, lfruSpecChoice c5cfg 0 (sortCands (candidatesOf c5shard)) = some k ∧
      evictBody c5cfg 0 c5shard = some (removeKey k c5shard) ∧
      (removeKey k c5shard).map.length < c5shard.map.length ∧
      (sortCands (candidatesOf c5shard)).Perm (candidatesOf c5shard) ∧
      (sortCands (candidatesOf c5shard)).Sorted candLE :=
  c5_lfru_selection c5cfg 0 c5shard rfl (List.cons_ne_nil _ _)

/-- Helper: countK of the empty queue. -/
theorem countK_nil (x : CacheKey) : countK x [] = 0 := rfl

/-- Helper: countK on a cons. -/
theorem countK_cons (x a : CacheKey) (l : List CacheKey) :
    countK x (a :: l) = (if a = x then 1 else 0) + countK x l := rfl

/-- Helper: retaining away a key leaves none of it. -/
theorem countK_filter_self (k : CacheKey) (l : List CacheKey) :
    countK k (l.filter (fun q => decide (q ≠ k))) = 0 := by
  induction l with
  | nil => simp [countK]
  | cons a rest ih =>
    rw [List.filter_cons]
    by_cases ha : a = k
    · rw [if_neg (by simp [ha])]
      exact ih
    · rw [if_pos (by simp [ha])]
      rw [countK_cons, if_neg ha, ih]

/-- Helper: retaining away another key changes no other count. -/
theorem countK_filter_other (k x : CacheKey) (l : List CacheKey) (hx : x ≠ k) :
    countK x (l.filter (fun q => decide (q ≠ k))) = countK x l := by
  induction l with
  | nil => simp
  | cons a rest ih =>
    rw [List.filter_cons]
    by_cases ha : a = k
    · rw [if_neg (by simp [ha])]
      rw [ih, countK_cons, if_neg (by rw [ha]; exact fun h => hx h.symm)]
      omega
    · rw [if_pos (by simp [ha])]
      rw [countK_cons, countK_cons, ih]

/-- Helper: counting over an append. -/
theorem countK_append (x : CacheKey) (l1 l2 : List CacheKey) :
    countK x (l1 ++ l2) = countK x l1 + countK x l2 := by
  induction l1 with
  | nil => simp [countK]
  | cons a rest ih =>
    rw [List.cons_append, countK_cons, countK_cons, ih]
    omega

/-- Helper: the erased key is gone. -/
theorem containsKey_eraseKey_self (k : CacheKey) (m : List (CacheKey × CacheItem)) :
    containsKey (eraseKey k m) k = false := by
  induction m with
  | nil => simp [eraseKey, containsKey, lookupKey]
  | cons kv rest ih =>
    rw [eraseKey, List.filter_cons]
    by_cases ha : kv.1 = k
    · rw [if_neg (by simp [ha])]
      exact ih
    · rw [if_pos (by simp [ha]), containsKey_cons]
      rw [show List.filter (fun kv => decide (kv.1 ≠ k)) rest = eraseKey k rest from rfl, ih]
      simp [ha]

/-- Helper: erasing a key keeps every other key. -/
theorem containsKey_eraseKey_other (k x : CacheKey) (m : List (CacheKey × CacheItem))
    (hx : x ≠ k) : containsKey (eraseKey k m) x = containsKey m x := by
  induction m with
  | nil => simp [eraseKey]
  | cons kv rest ih =>
    rw [eraseKey, List.filter_cons]
    by_cases ha : kv.1 = k
    · rw [if_neg (by simp [ha])]
      rw [show List.filter (fun kv => decide (kv.1 ≠ k)) rest = eraseKey k rest from rfl, ih]
      rw [containsKey_cons, ha]
      simp [Ne.symm hx]
    · rw [if_pos (by simp [ha]), containsKey_cons, containsKey_cons]
      rw [show List.filter (fun kv => decide (kv.1 ≠ k)) rest = eraseKey k rest from rfl, ih]

/-- Helper: the inserted key is present. -/
theorem containsKey_insertKV_self (k : CacheKey) (v : CacheItem)
    (m : List (CacheKey × CacheItem)) :
    containsKey (insertKV k v m) k = true := by
  induction m with
  | nil => simp [insertKV, containsKey, lookupKey]
  | cons kv rest ih =>
    rw [insertKV]
    by_cases ha : kv.1 = k
    · rw [if_pos ha, containsKey_cons]
      simp
    · rw [if_neg ha, containsKey_cons, ih]
      simp

/-- Helper: inserting a key keeps every other key as it was. -/
theorem containsKey_insertKV_other (k x : CacheKey) (v : CacheItem)
    (m : List (CacheKey × CacheItem)) (hx : x ≠ k) :
    containsKey (insertKV k v m) x = containsKey m x := by
  induction m with
  | nil =>
    simp [insertKV, containsKey, lookupKey, Ne.symm hx]
  | cons kv rest ih =>
    rw [insertKV]
    by_cases ha : kv.1 = k
    · rw [if_pos ha, containsKey_cons, containsKey_cons, ha]
    · rw [if_neg ha, containsKey_cons, containsKey_cons, ih]

/-- Helper: a key of a filtered map is a key of the map. -/
theorem containsKey_filter_imp (p : CacheKey × CacheItem → Bool)
    (m : List (CacheKey × CacheItem)) (x : CacheKey)
    (h : containsKey (m.filter p) x = true) : containsKey m x = true := by
  induction m with
  | nil => simp [containsKey, lookupKey] at h
  | cons kv rest ih =>
    rw [List.filter_cons] at h
    rw [containsKey_cons]
    by_cases hp : p kv
    · rw [if_pos hp, containsKey_cons] at h
      rcases Bool.or_eq_true_iff.mp h with h1 | h1
      · rw [h1]
        simp
      · rw [ih h1]
        simp
    · rw [if_neg hp] at h
      rw [ih h]
      simp

/-- Helper: removeKey preserves the exactly-once invariant. -/
theorem shardInv_removeKey (k : CacheKey) (s : Shard) (hinv : shardInv s) :
    shardInv (removeKey k s) := by
  intro x
  simp only [removeKey]
  by_cases hx : x = k
  · rw [hx, countK_filter_self]
    simp [containsKey_eraseKey_self]
  · rw [countK_filter_other k x _ hx]
    rw [hinv x]
    simp only [containsKey_eraseKey_other k x _ hx]

/-- Helper: the retain-then-push-back pattern of get, update and incr
preserves the exactly-once invariant. -/
theorem shardInv_touch (k : CacheKey) (item : CacheItem) (s : Shard)
    (hinv : shardInv s) :
    shardInv ⟨insertKV k item s.map, s.queue.filter (fun q => decide (q ≠ k)) ++ [k]⟩ := by
  intro x
  simp only
  rw [countK_append]
  by_cases hx : x = k
  · rw [hx, countK_filter_self, countK_cons]
    simp [containsKey_insertKV_self, countK_nil]
  · rw [countK_filter_other k x _ hx, countK_cons]
    rw [if_neg (fun h => hx h.symm)]
    rw [hinv x]
    simp only [containsKey_insertKV_other k x _ _ hx, countK]
    omega

/-- Helper: inserting a fresh key preserves the exactly-once invariant. -/
theorem shardInv_insert_fresh (k : CacheKey) (item : CacheItem) (s : Shard)
    (hinv : shardInv s) (hk : containsKey s.map k = false) :
    shardInv ⟨insertKV k item s.map, s.queue ++ [k]⟩ := by
  intro x
  simp only
  rw [countK_append]
  by_cases hx : x = k
  · rw [hx]
    have h0 : countK k s.queue = 0 := by
      rw [hinv k, hk]
      rfl
    rw [h0, countK_cons]
    simp [containsKey_insertKV_self, countK_nil]
  · rw [countK_cons, if_neg (fun h => hx h.symm), hinv x]
    simp only [containsKey_insertKV_other k x _ _ hx, countK]
    omega

/-- Helper: a fold of removals preserves the exactly-once invariant. -/
theorem shardInv_foldl_removeKey (ks : List CacheKey) :
    ∀ s : Shard, shardInv s → shardInv (ks.foldl (fun acc k => removeKey k acc) s) := by
  induction ks with
  | nil => intro s hinv; exact hinv
  | cons k rest ih => intro s hinv; exact ih _ (shardInv_removeKey k s hinv)

/-- Helper: the reap phase preserves the exactly-once invariant. -/
theorem shardInv_reap (now : Nat) (s : Shard) (hinv : shardInv s) :
    shardInv (reapExpired now s) :=
  shardInv_foldl_removeKey _ s hinv

/-- Helper: one iteration body of the eviction loop preserves the
exactly-once invariant. -/
theorem shardInv_evictBody (cfg : ShardCfg) (now : Nat) (s s2 : Shard)
    (hinv : shardInv s) (h : evictBody cfg now s = some s2) : shardInv s2 := by
  cases hpol : cfg.policy with
  | lru =>
    simp only [evictBody, hpol] at h
    cases hq : s.queue with
    | nil =>
      rw [hq] at h
      cases h
    | cons k rest =>
      rw [hq] at h
      cases h
      intro x
      simp only [removeKey]
      by_cases hx : x = k
      · rw [hx, countK_filter_self]
        simp [containsKey_eraseKey_self]
      · rw [countK_filter_other k x _ hx]
        have hcx := hinv x
        rw [hq, countK_cons, if_neg (Ne.symm hx)] at hcx
        rw [Nat.zero_add] at hcx
        simp only [containsKey_eraseKey_other k x _ hx]
        exact hcx
  | lfu =>
    simp only [evictBody, hpol] at h
    cases hmin : minByFreqAux s.map with
    | none =>
      rw [hmin] at h
      cases h
      exact hinv
    | some best =>
      rw [hmin] at h
      cases h
      exact shardInv_removeKey _ _ hinv
  | lfru =>
    simp only [evictBody, hpol] at h
    cases h1 : lfruScanBoth cfg now (sortCands (candidatesOf s)) with
    | some k =>
      rw [h1] at h
      cases h
      exact shardInv_removeKey _ _ hinv
    | none =>
      rw [h1] at h
      cases h2 : lfruScanFreq cfg (sortCands (candidatesOf s)) with
      | some k =>
        rw [h2] at h
        cases h
        exact shardInv_removeKey _ _ hinv
      | none =>
        rw [h2] at h
        cases h3 : sortCands (candidatesOf s) with
        | nil =>
          rw [h3] at h
          cases h
          exact hinv
        | cons c rest =>
          rw [h3] at h
          cases h
          exact shardInv_removeKey _ _ hinv

/-- Helper: the eviction loop preserves the exactly-once invariant. -/
theorem shardInv_evictLoopF (cfg : ShardCfg) (now : Nat) :
    ∀ (n : Nat) (s s2 : Shard), shardInv s → evictLoopF cfg now n s = some s2 →
      shardInv s2 := by
  intro n
  induction n with
  | zero =>
    intro s s2 _ h
    simp [evictLoopF] at h
  | succ m ih =>
    intro s s2 hinv h
    rw [evictLoopF] at h
    by_cases hge : s.map.length ≥ cfg.cap
    · rw [if_pos hge] at h
      cases hb : evictBody cfg now s with
      | none =>
        rw [hb] at h
        cases h
        exact hinv
      | some s1 =>
        rw [hb] at h
        exact ih s1 s2 (shardInv_evictBody cfg now s s1 hinv hb) h
    · rw [if_neg hge] at h
      cases h
      exact hinv

/-- Helper: Cache::evict_shard preserves the exactly-once invariant. -/
theorem shardInv_evict_shard (cfg : ShardCfg) (now : Nat) (s s2 : Shard)
    (hinv : shardInv s) (h : evict_shard cfg now s = some s2) : shardInv s2 := by
  unfold evict_shard at h
  exact shardInv_evictLoopF cfg now _ _ s2 (shardInv_reap now s hinv) h

/-- Helper: removeKey introduces no key. -/
theorem containsKey_removeKey_imp (k x : CacheKey) (s : Shard)
    (h : containsKey (removeKey k s).map x = true) : containsKey s.map x = true := by
  simp only [removeKey, eraseKey] at h
  exact containsKey_filter_imp _ _ _ h

/-- Helper: a fold of removals introduces no key. -/
theorem containsKey_foldl_removeKey_imp (ks : List CacheKey) :
    ∀ (s : Shard) (x : CacheKey),
      containsKey ((ks.foldl (fun acc k => removeKey k acc) s)).map x = true →
      containsKey s.map x = true := by
  induction ks with
  | nil =>
    intro s x h
    exact h
  | cons k rest ih =>
    intro s x h
    exact containsKey_removeKey_imp k x s (ih _ x h)

/-- Helper: one eviction iteration introduces no key. -/
theorem containsKey_evictBody_imp (cfg : ShardCfg) (now : Nat) (s s2 : Shard)
    (x : CacheKey) (h : evictBody cfg now s = some s2)
    (hc : containsKey s2.map x = true) : containsKey s.map x = true := by
  cases hpol : cfg.policy with
  | lru =>
    simp only [evictBody, hpol] at h
    cases hq : s.queue with
    | nil =>
      rw [hq] at h
      cases h
    | cons k rest =>
      rw [hq] at h
      cases h
      exact containsKey_removeKey_imp k x ⟨s.map, rest⟩ hc
  | lfu =>
    simp only [evictBody, hpol] at h
    cases hmin : minByFreqAux s.map with
    | none =>
      rw [hmin] at h
      cases h
      exact hc
    | some best =>
      rw [hmin] at h
      cases h
      exact containsKey_removeKey_imp _ x s hc
  | lfru =>
    simp only [evictBody, hpol] at h
    cases h1 : lfruScanBoth cfg now (sortCands (candidatesOf s)) with
    | some k =>
      rw [h1] at h
      cases h
      exact containsKey_removeKey_imp _ x s hc
    | none =>
      rw [h1] at h
      cases h2 : lfruScanFreq cfg (sortCands (candidatesOf s)) with
      | some k =>
        rw [h2] at h
        cases h
        exact containsKey_removeKey_imp _ x s hc
      | none =>
        rw [h2] at h
        cases h3 : sortCands (candidatesOf s) with
        | nil =>
          rw [h3] at h
          cases h
          exact hc
        | cons c rest =>
          rw [h3] at h
          cases h
          exact containsKey_removeKey_imp _ x s hc

/-- Helper: the eviction loop introduces no key. -/
theorem containsKey_evictLoopF_imp (cfg : ShardCfg) (now : Nat) :
    ∀ (n : Nat) (s s2 : Shard) (x : CacheKey), evictLoopF cfg now n s = some s2 →
      containsKey s2.map x = true → containsKey s.map x = true := by
  intro n
  induction n with
  | zero =>
    intro s s2 x h
    simp [evictLoopF] at h
  | succ m ih =>
    intro s s2 x h hc
    rw [evictLoopF] at h
    by_cases hge : s.map.length ≥ cfg.cap
    · rw [if_pos hge] at h
      cases hb : evictBody cfg now s with
      | none =>
        rw [hb] at h
        cases h
        exact hc
      | some s1 =>
        rw [hb] at h
        exact containsKey_evictBody_imp cfg now s s1 x hb (ih s1 s2 x h hc)
    · rw [if_neg hge] at h
      cases h
      exact hc

/-- Helper: Cache::evict_shard introduces no key. -/
theorem containsKey_evict_shard_imp (cfg : ShardCfg) (now : Nat) (s s2 : Shard)
    (x : CacheKey) (h : evict_shard cfg now s = some s2)
    (hc : containsKey s2.map x = true) : containsKey s.map x = true := by
  unfold evict_shard at h
  exact containsKey_foldl_removeKey_imp _ s x
    (containsKey_evictLoopF_imp cfg now _ _ s2 x h hc)

/-- Claim C4 as it holds on the code: every cache operation - insert,
get, update, delete, incr, the reap pass and every iteration of the
eviction loop - preserves the exactly-once invariant between a shard
map and its recency queue, with one exception the counterexample forces:
insert preserves it only when the inserted key is not already present
(re-inserting a present key leaves the key once in the map but twice in
the queue). -/
theorem c4_exactly_once_invariant (cfg : ShardCfg) (now : Nat) (op : ShardOp)
    (s s2 : Shard) (hinv : shardInv s)
    (hfresh : ∀ k v ttl, op = ShardOp.insert k v ttl → containsKey s.map k = false)
    (happ : applyShardOp cfg now op s = some s2) : shardInv s2 := by
  cases op with
  | insert k v ttl =>
    have hk := hfresh k v ttl rfl
    simp only [applyShardOp, Shard.insertOp] at happ
    by_cases hge : s.map.length ≥ cfg.cap
    · rw [if_pos hge] at happ
      cases hev : evict_shard cfg now s with
      | none =>
        rw [hev] at happ
        cases happ
      | some s1 =>
        rw [hev] at happ
        cases happ
        apply shardInv_insert_fresh k _ s1 (shardInv_evict_shard cfg now s s1 hinv hev)
        cases hc : containsKey s1.map k with
        | false => rfl
        | true =>
          rw [containsKey_evict_shard_imp cfg now s s1 k hev hc] at hk
          cases hk
    · rw [if_neg hge] at happ
      cases happ
      exact shardInv_insert_fresh k _ s hinv hk
  | get k =>
    have h2 : (Shard.getOp now k s).1 = s2 := Option.some.inj happ
    cases hlk : lookupKey s.map k with
    | none =>
      have hch : (Shard.getOp now k s).1 = s := by
        unfold Shard.getOp
        rw [hlk]
      rw [hch] at h2
      rw [← h2]
      exact hinv
    | some item =>
      by_cases hex : isExpired now item
      · have hch : (Shard.getOp now k s).1 = removeKey k s := by
          unfold Shard.getOp
          rw [hlk]
          simp [hex]
        rw [hch] at h2
        rw [← h2]
        exact shardInv_removeKey _ _ hinv
      · have hch : (Shard.getOp now k s).1 =
            ⟨insertKV k { item with frequency := item.frequency + 1, last_access := now } s.map,
              s.queue.filter (fun q => decide (q ≠ k)) ++ [k]⟩ := by
          unfold Shard.getOp
          rw [hlk]
          simp [hex]
        rw [hch] at h2
        rw [← h2]
        exact shardInv_touch _ _ _ hinv
  | update k v ttl =>
    have h2 : (Shard.updateOp now k v ttl s).1 = s2 := Option.some.inj happ
    cases hlk : lookupKey s.map k with
    | none =>
      have hch : (Shard.updateOp now k v ttl s).1 = s := by
        unfold Shard.updateOp
        rw [hlk]
      rw [hch] at h2
      rw [← h2]
      exact hinv
    | some item =>
      have hch : (Shard.updateOp now k v ttl s).1 =
          ⟨insertKV k
              { item with
                value := ⟨v, ttl⟩
                expiry := compute_expiry_using_ttl now ttl
                frequency := item.frequency + 1
                last_access := now } s.map,
            s.queue.filter (fun q => decide (q ≠ k)) ++ [k]⟩ := by
        unfold Shard.updateOp
        rw [hlk]
      rw [hch] at h2
      rw [← h2]
      exact shardInv_touch _ _ _ hinv
  | delete k =>
    have h2 : (Shard.deleteOp k s).1 = s2 := Option.some.inj happ
    cases hlk : lookupKey s.map k with
    | none =>
      have hch : (Shard.deleteOp k s).1 = s := by
        unfold Shard.deleteOp
        rw [hlk]
      rw [hch] at h2
      rw [← h2]
      exact hinv
    | some item =>
      have hch : (Shard.deleteOp k s).1 = removeKey k s := by
        unfold Shard.deleteOp
        rw [hlk]
      rw [hch] at h2
      rw [← h2]
      exact shardInv_removeKey _ _ hinv
  | incr k a =>
    have h2 : (Shard.incrOp now k a s).1 = s2 := Option.some.inj happ
    cases hlk : lookupKey s.map k with
    | none =>
      have hch : (Shard.incrOp now k a s).1 = s := by
        unfold Shard.incrOp
        rw [hlk]
      rw [hch] at h2
      rw [← h2]
      exact hinv
    | some item =>
      cases hnum : dataValueNum item.value.value with
      | none =>
        have hch : (Shard.incrOp now k a s).1 = s := by
          unfold Shard.incrOp
          rw [hlk]
          simp [hnum]
        rw [hch] at h2
        rw [← h2]
        exact hinv
      | some num =>
        have hch : (Shard.incrOp now k a s).1 =
            ⟨insertKV k
                { item with
                  value := ⟨DataValue.json (Json.num (f64Add num a)), item.value.ttl_secs⟩
                  frequency := item.frequency + 1
                  last_access := now } s.map,
              s.queue.filter (fun q => decide (q ≠ k)) ++ [k]⟩ := by
          unfold Shard.incrOp
          rw [hlk]
          simp [hnum]
        rw [hch] at h2
        rw [← h2]
        exact shardInv_touch _ _ _ hinv
  | reap =>
    cases happ
    exact shardInv_reap now s hinv
  | evictIter =>
    simp only [applyShardOp] at happ
    cases happ
    by_cases hge : s.map.length ≥ cfg.cap
    · rw [if_pos hge]
      cases hb : evictBody cfg now s with
      | none => exact hinv
      | some s1 => exact shardInv_evictBody cfg now s s1 hinv hb
    · rw [if_neg hge]
      exact hinv

/-- Witness for c4_exactly_once_invariant: inserting the fresh key kC
into the empty shard. -/
theorem c4_exactly_once_invariant_witness :
    shardInv Shard.empty ∧ shardInv c4w :=
  ⟨fun _ => rfl,
    c4_exactly_once_invariant c4cfg 0
      (ShardOp.insert kC ⟨DataValue.string ("a"), none⟩ none) Shard.empty c4w
      (fun _ => rfl)
      (fun k v ttl h => by cases h; rfl)
      rfl⟩

/-- Claim C6 as it holds on the code: for a present key whose stored
expiry is e, get treats the key as absent - returns a miss and removes
it from the map and the recency queue - exactly when e is strictly less
than now (at e = now the key is still served, with its frequency and
recency refreshed); and update and incr do not consult expiry at all:
update on a present key returns the old value and incr on a present
numeric key returns the new number, expired or not. -/
theorem c6_amended_expiry_semantics (s : Shard) (k : CacheKey) (item : CacheItem)
    (now e : Nat) (hlk : lookupKey s.map k = some item) (hexp : item.expiry = some e) :
    (e < now → Shard.getOp now k s = (removeKey k s, none)) ∧
    (now ≤ e → (Shard.getOp now k s).2 = some item.value) ∧
    (∀ v ttl, (Shard.updateOp now k v ttl s).2 = some item.value.value) ∧
    (∀ a n, dataValueNum item.value.value = some n →
      (Shard.incrOp now k a s).2 = some (f64Add n a)) := by
  refine ⟨?_, ?_, ?_, ?_⟩
  · intro hlt
    have hext : isExpired now item = true := by
      simp [isExpired, hexp]
      omega
    unfold Shard.getOp
    rw [hlk]
    simp [hext]
  · intro hle
    have hexf : isExpired now item = false := by
      simp [isExpired, hexp]
      omega
    unfold Shard.getOp
    rw [hlk]
    simp [hexf]
  · intro v ttl
    unfold Shard.updateOp
    rw [hlk]
  · intro a n hn
    unfold Shard.incrOp
    rw [hlk]
    simp [hn]

/-- Witness for c6_amended_expiry_semantics: the expired item of
c6shard2 is removed and missed by get at now = 100; the boundary item of
c6shard1 (expiry exactly 100) is still served; update returns the old
value and incr the new number on the long-expired items of c6shard2 and
c6shard3. -/
theorem c6_amended_expiry_semantics_witness :
    Shard.getOp 100 kC c6shard2 = (removeKey kC c6shard2, none) ∧
    (Shard.getOp 100 kC c6shard1).2 = some ⟨DataValue.string ("x"), none⟩ ∧
    (Shard.updateOp 100 kC (DataValue.string ("y")) none c6shard2).2 =
      some (DataValue.string ("x")) ∧
    (Shard.incrOp 100 kC 2 c6shard3).2 = some (f64Add 10 2) := by
  refine ⟨?_, ?_, ?_, ?_⟩
  · exact (c6_amended_expiry_semantics c6shard2 kC
      ⟨⟨DataValue.string ("x"), none⟩, 0, some 5, 0, 1⟩ 100 5 rfl rfl).1 (by decide)
  · exact (c6_amended_expiry_semantics c6shard1 kC
      ⟨⟨DataValue.string ("x"), none⟩, 0, some 100, 0, 1⟩ 100 100 rfl rfl).2.1 (by decide)
  · exact (c6_amended_expiry_semantics c6shard2 kC
      ⟨⟨DataValue.string ("x"), none⟩, 0, some 5, 0, 1⟩ 100 5 rfl rfl).2.2.1
      (DataValue.string ("y")) none
  · exact (c6_amended_expiry_semantics c6shard3 kC
      ⟨⟨DataValue.string ("10"), none⟩, 0, some 5, 0, 1⟩ 100 5 rfl rfl).2.2.2 2 10 (by decide)
